import Mathlib

/-!
Verification of the OOP-metrics analyzer (`src/analyzer.ts`).

The analyzer walks a program's class hierarchy, resolving each class into a
`ClassMetrics` record (memoized in a registry list), classifies every class's
properties into own / inherited / overridden buckets plus a private count,
aggregates five program-wide MOOD ratios, and formats the result.

The TypeScript semantic model (the `typescript` compiler API) is external: we
embed it as an explicit environment `Env` providing, for each class type id,
its printed name, its declaration nodes, its base types and its property
symbols, plus a source-position function for nodes.  Recursion through
base types is made total with an explicit fuel parameter; in the real code
the TypeScript checker guarantees acyclic inheritance, so fuel exhaustion is
a pure modelling artifact.
-/

set_option maxHeartbeats 1600000

namespace OOPMetrics

/-- Syntactic kinds of declarations and modifiers, the fragment of
`ts.SyntaxKind` the analyzer inspects. -/
inductive NodeKind where
  | methodDeclaration
  | propertyDeclaration
  | parameter
  | getAccessorDeclaration
  | privateKeyword
  | privateIdentifier
  | other
deriving DecidableEq, Repr

/-- A property declaration node: its syntactic kind, the text of its name,
its modifier kinds and the node id of its enclosing (parent) declaration.
Models the `ts.Declaration` data the analyzer reads. -/
structure PropDecl where
  kind : NodeKind
  name : String
  modifiers : List NodeKind
  parent : Nat
deriving DecidableEq, Repr

instance : Inhabited PropDecl := ⟨⟨.other, "", [], 0⟩⟩

/-- A property symbol as returned by `classType.getProperties()`: its list of
declarations (the analyzer only uses the first, if any). -/
structure PropSymbol where
  declarations : List PropDecl
deriving DecidableEq, Repr

/-- A resolved class type (`ts.Type` of a class): printed name
(`typeChecker.typeToString`), declaration node ids of its symbol, base type
ids (`getBaseTypes`), and property symbols (`getProperties`). -/
structure ClassType where
  name : String
  decls : List Nat
  baseTypes : List Nat
  props : List PropSymbol
deriving DecidableEq, Repr

instance : Inhabited ClassType := ⟨⟨"", [], [], []⟩⟩

/-- The external semantic model: class types indexed by type id, and
`getAbsolutePosition` for declaration nodes (the "file:line:col" string). -/
structure Env where
  types : List ClassType
  pathOf : Nat → String

/-- Source list `PRIVATE_MODIFIERS`. -/
def PRIVATE_MODIFIERS : List NodeKind := [.privateKeyword, .privateIdentifier]

/-- Predicate `ts.isMethodDeclaration`. -/
def isMethodDeclaration (d : PropDecl) : Bool := d.kind == .methodDeclaration

/-- Predicate `ts.isPropertyDeclaration`. -/
def isPropertyDeclaration (d : PropDecl) : Bool := d.kind == .propertyDeclaration

/-- Predicate `ts.isParameter`. -/
def isParameter (d : PropDecl) : Bool := d.kind == .parameter

/-- Predicate `ts.isGetAccessorDeclaration`. -/
def isGetAccessorDeclaration (d : PropDecl) : Bool := d.kind == .getAccessorDeclaration

/-- Source list `IS_ATTR_DECL`. -/
def IS_ATTR_DECL : List (PropDecl → Bool) :=
  [isPropertyDeclaration, isParameter, isGetAccessorDeclaration]

/-- The two property buckets of a class, `'methods' | 'attributes'`. -/
inductive PropKind where
  | methods
  | attributes
deriving DecidableEq, Repr

/-- Method `PropertyMetrics.isOfType`. -/
def isOfType (propType : PropKind) (propDecl : PropDecl) : Bool :=
  match propType with
  | .methods => isMethodDeclaration propDecl
  | .attributes => IS_ATTR_DECL.any (fun is => is propDecl)

/-- Method `PropertyMetrics.isPrivate`. -/
def isPrivate (decl : PropDecl) : Bool :=
  decl.modifiers.any (fun modifier => PRIVATE_MODIFIERS.contains modifier)

/-- The per-class, per-kind property bucket (`class PropertyMetrics`). -/
structure PropertyMetrics where
  privateCount : Nat := 0
  inherited : List PropDecl := []
  overridden : List PropDecl := []
  own : List PropDecl := []
deriving DecidableEq, Repr

instance : Inhabited PropertyMetrics := ⟨{}⟩

/-- Method `PropertyMetrics.allProps`. -/
def PropertyMetrics.allProps (pm : PropertyMetrics) : List PropDecl :=
  pm.inherited ++ pm.overridden ++ pm.own

/-- Method `PropertyMetrics.length`. -/
def PropertyMetrics.length (pm : PropertyMetrics) : Nat :=
  pm.allProps.length + pm.privateCount

/-- Per-class metrics record (`class ClassMetrics`). -/
structure ClassMetrics where
  className : String := ""
  classPath : String := ""
  parentClass : String := ""
  depthOfInheritance : Nat := 0
  numberOfChildren : Nat := 0
  methods : PropertyMetrics := {}
  attributes : PropertyMetrics := {}
deriving DecidableEq, Repr

instance : Inhabited ClassMetrics := ⟨{}⟩

/-- The body of the per-property loop in `PropertyMetrics.analyze`:
skip undeclarated or wrongly-shaped properties, count private ones, then
classify by name lookup in the parent's finalized union and by the
declaration's enclosing node. -/
def PropertyMetrics.analyzeStep (propType : PropKind) (parentProps : List PropDecl)
    (classDecl : Option Nat) (pm : PropertyMetrics) (prop : PropSymbol) : PropertyMetrics :=
  match prop.declarations.head? with
  | none => pm
  | some decl =>
    if !(isOfType propType decl) then pm
    else
      let pm1 := if isPrivate decl then { pm with privateCount := pm.privateCount + 1 } else pm
      let declName := decl.name
      let inheritedHit := parentProps.any (fun p => p.name == declName)
      if !inheritedHit then { pm1 with own := pm1.own ++ [decl] }
      else if some decl.parent == classDecl then
        { pm1 with overridden := pm1.overridden ++ [decl] }
      else { pm1 with inherited := pm1.inherited ++ [decl] }

/-- The parent's finalized own ∪ inherited ∪ overridden union for one bucket:
the `parentClass?.[this.propType]?.allProps() ?? []` expression. -/
def parentPropsOf (parentClass : Option ClassMetrics) (propType : PropKind) : List PropDecl :=
  match parentClass with
  | none => []
  | some p =>
    match propType with
    | .methods => p.methods.allProps
    | .attributes => p.attributes.allProps

/-- Method `PropertyMetrics.analyze`: fold the classification step over the class's
property symbols.  `propType` is the `propType` constructor argument of
`PropertyMetrics`; `parentClass` is the resolved parent (or `none`). -/
def PropertyMetrics.analyze (pm : PropertyMetrics) (propType : PropKind)
    (parentClass : Option ClassMetrics) (classType : ClassType) : PropertyMetrics :=
  let parentProps : List PropDecl := parentPropsOf parentClass propType
  let classDecl := classType.decls.head?
  classType.props.foldl (PropertyMetrics.analyzeStep propType parentProps classDecl) pm

/-- Errors aborting the analysis.  `multipleInheritance` is the
`Unexpected base classes number` throw; `missingType` (a dangling type id)
and `fuelExhausted` (cyclic base-type chain) are modelling artifacts that
cannot occur under the TypeScript checker. -/
inductive AnalyzerError where
  | multipleInheritance (n : Nat)
  | missingType
  | fuelExhausted
deriving DecidableEq, Repr

/-- The `classPath` identity component: position of the first declaration of
the class symbol, or the empty string when there is none. -/
def typePath (env : Env) (ty : ClassType) : String :=
  match ty.decls.head? with
  | none => ""
  | some d => env.pathOf d

/-- Construction of a fresh `ClassMetrics` in `Analyzer.getClassMetrics`:
identity fields, parent-derived fields, and the two bucket classifications. -/
def mkClassMetrics (className classPath : String) (parent : Option ClassMetrics)
    (ty : ClassType) : ClassMetrics :=
  { className := className
    classPath := classPath
    parentClass := match parent with | none => "" | some p => p.className
    depthOfInheritance := match parent with | none => 0 | some p => 1 + p.depthOfInheritance
    numberOfChildren := 0
    methods := PropertyMetrics.analyze {} .methods parent ty
    attributes := PropertyMetrics.analyze {} .attributes parent ty }

/-- Method `Analyzer.getClassMetrics`, with `Analyzer.getParentClassMetrics` inlined
(the `match` on `ty.baseTypes`: no base → root, one base → recursive
resolution plus child-count increment, more → fatal error).  The registry
`Analyzer.classes` is the explicit state `s`; the function returns the new
registry and the index of the resolved class's entry. -/
def getClassMetrics (env : Env) :
    Nat → List ClassMetrics → Nat → Except AnalyzerError (List ClassMetrics × Nat)
  | fuel, s, tid =>
    match env.types[tid]? with
    | none => .error .missingType
    | some ty =>
      let className := ty.name
      let classPath := typePath env ty
      match s.findIdx? (fun c => c.className == className && c.classPath == classPath) with
      | some i => .ok (s, i)
      | none =>
        match ty.baseTypes with
        | [] =>
          .ok (s ++ [mkClassMetrics className classPath none ty], s.length)
        | [b] =>
          match fuel with
          | 0 => .error .fuelExhausted
          | f + 1 =>
            match getClassMetrics env f s b with
            | .error e => .error e
            | .ok (s1, j) =>
              let parent := s1.getD j default
              let s2 := s1.set j { parent with numberOfChildren := parent.numberOfChildren + 1 }
              .ok (s2 ++ [mkClassMetrics className classPath (some parent) ty], s2.length)
        | _ :: _ :: _ => .error (.multipleInheritance ty.baseTypes.length)

/-- The driver traversal: `Analyzer.analyzeClass` recursively walks the AST
and calls `getClassMetrics` on every class-like node; we model it by the
pre-order list of class type ids of the class-like nodes it visits. -/
def analyzeClasses (env : Env) (fuel : Nat) :
    List Nat → List ClassMetrics → Except AnalyzerError (List ClassMetrics)
  | [], s => .ok s
  | tid :: rest, s =>
    match getClassMetrics env fuel s tid with
    | .error e => .error e
    | .ok (s', _) => analyzeClasses env fuel rest s'

/-- Source `class MoodMetric`: a numerator/denominator accumulator. -/
structure MoodMetric where
  divided : Nat := 0
  divider : Nat := 0
deriving DecidableEq, Repr

/-- A JavaScript `number` as produced by `MoodMetric.calculate`: a finite
(exact rational) value, `Infinity`, or `NaN`. -/
inductive JSNumber where
  | fin : ℚ → JSNumber
  | inf : JSNumber
  | nan : JSNumber
deriving DecidableEq, Repr

/-- Method `MoodMetric.calculate`: JavaScript division `divided / divider`.
`0 / 0` is `NaN` and `n / 0` with `n > 0` is `Infinity`; both are the
"zero total denominator" sentinel outcomes. -/
def MoodMetric.calculate (m : MoodMetric) : JSNumber :=
  if m.divider = 0 then (if m.divided = 0 then .nan else .inf) else
    .fin ((m.divided : ℚ) / (m.divider : ℚ))

/-- The zero-denominator sentinel: a non-finite JavaScript number. -/
def JSNumber.isSentinel : JSNumber → Bool
  | .fin _ => false
  | .inf => true
  | .nan => true

/-- The five accumulators of `Analyzer.analyze`'s aggregation loop. -/
structure MoodTotals where
  mif : MoodMetric := {}
  aif : MoodMetric := {}
  mhf : MoodMetric := {}
  ahf : MoodMetric := {}
  pof : MoodMetric := {}
deriving DecidableEq, Repr

/-- One iteration of the `for (const oneClass of this.classes)` aggregation
loop in `Analyzer.analyze`. -/
def aggStep (t : MoodTotals) (oneClass : ClassMetrics) : MoodTotals :=
  let totalMethods := oneClass.methods.length
  let totalAttrs := oneClass.attributes.length
  { mif := { divided := t.mif.divided + (oneClass.methods.inherited.length + oneClass.methods.own.length)
             divider := t.mif.divider + totalMethods }
    aif := { divided := t.aif.divided + (oneClass.attributes.inherited.length + oneClass.attributes.own.length)
             divider := t.aif.divider + totalAttrs }
    mhf := { divided := t.mhf.divided + oneClass.methods.privateCount
             divider := t.mhf.divider + totalMethods }
    ahf := { divided := t.ahf.divided + oneClass.attributes.privateCount
             divider := t.ahf.divider + totalAttrs }
    pof := { divided := t.pof.divided + (oneClass.methods.inherited.length + oneClass.methods.overridden.length)
             divider := t.pof.divider + oneClass.methods.own.length * oneClass.numberOfChildren } }

/-- The result object returned by `Analyzer.analyze`. -/
structure AnalyzeResult where
  classes : List ClassMetrics
  mif : JSNumber
  aif : JSNumber
  mhf : JSNumber
  ahf : JSNumber
  pof : JSNumber
deriving DecidableEq, Repr

instance : Inhabited AnalyzeResult := ⟨⟨[], .nan, .nan, .nan, .nan, .nan⟩⟩

/-- Method `Analyzer.analyze`: run the traversal from an empty registry, then
aggregate the five ratios over the resolved classes. -/
def Analyzer.analyze (env : Env) (fuel : Nat) (nodes : List Nat) :
    Except AnalyzerError AnalyzeResult :=
  match analyzeClasses env fuel nodes [] with
  | .error e => .error e
  | .ok classes =>
    let t := classes.foldl aggStep {}
    .ok { classes := classes
          mif := t.mif.calculate
          aif := t.aif.calculate
          mhf := t.mhf.calculate
          ahf := t.ahf.calculate
          pof := t.pof.calculate }

/-- A projected class record in the formatted output; `parentClass = none`
models omission of the key. -/
structure FormattedClass where
  className : String
  numberOfChildren : Nat
  depthOfInheritance : Nat
  parentClass : Option String
deriving DecidableEq, Repr

/-- The formatted result object (the object passed to `JSON.stringify`;
the serialization itself is external pretty-printing). -/
structure FormattedResult where
  classes : List FormattedClass
  mif : JSNumber
  aif : JSNumber
  mhf : JSNumber
  ahf : JSNumber
  pof : JSNumber
  maxNumberOfChildren : Nat
  maxDepthOfInheritance : Nat
deriving DecidableEq, Repr

/-- The per-class projection inside `formatMetrics` (`clearedClass`):
`parentClass` is included exactly when the stored string is truthy,
i.e. nonempty. -/
def clearClass (oneClass : ClassMetrics) : FormattedClass :=
  { className := oneClass.className
    numberOfChildren := oneClass.numberOfChildren
    depthOfInheritance := oneClass.depthOfInheritance
    parentClass := if oneClass.parentClass = "" then none else some oneClass.parentClass }

/-- Function `formatMetrics`. -/
def formatMetrics (result : AnalyzeResult) : FormattedResult :=
  { classes := result.classes.map clearClass
    mif := result.mif
    aif := result.aif
    mhf := result.mhf
    ahf := result.ahf
    pof := result.pof
    maxNumberOfChildren :=
      result.classes.foldl
        (fun maxNumber oneClass =>
          if oneClass.numberOfChildren > maxNumber then oneClass.numberOfChildren else maxNumber) 0
    maxDepthOfInheritance :=
      result.classes.foldl
        (fun maxNumber oneClass =>
          if oneClass.depthOfInheritance > maxNumber then oneClass.depthOfInheritance else maxNumber) 0 }

/-! ### General list helpers -/

/-- Indexing into a one-element extension of a list. -/
theorem getElem?_snoc {α : Type _} (l : List α) (x : α) (k : Nat) :
    (l ++ [x])[k]? = if k < l.length then l[k]? else if k = l.length then some x else none := by
  rcases Nat.lt_trichotomy k l.length with h | h | h
  · simp [List.getElem?_append_left h, h]
  · subst h
    simp [List.getElem?_concat_length]
  · rw [List.getElem?_append_right (Nat.le_of_lt h)]
    have h1 : ¬ k < l.length := Nat.not_lt.mpr (Nat.le_of_lt h)
    have h2 : k ≠ l.length := Nat.ne_of_gt h
    have h3 : ([x] : List α).length ≤ k - l.length := by simp; omega
    simp [h1, h2, List.getElem?_eq_none h3]

/-- A successful `findIdx?` returns an index whose element satisfies the
predicate. -/
theorem findIdx?_some_spec {α : Type _} {p : α → Bool} :
    ∀ {l : List α} {i : Nat}, l.findIdx? p = some i → ∃ c, l[i]? = some c ∧ p c = true := by
  intro l
  induction l with
  | nil => intro i h; simp at h
  | cons x xs ih =>
    intro i h
    rw [List.findIdx?_cons] at h
    by_cases hx : p x
    · simp [hx] at h
      exact ⟨x, by simp [← h], hx⟩
    · simp [hx, List.findIdx?_succ] at h
      obtain ⟨i', hi', rfl⟩ := h
      obtain ⟨c, hc, hpc⟩ := ih hi'
      exact ⟨c, by simpa using hc, hpc⟩

/-- If an element at index `i` satisfies the predicate and every index whose
element satisfies the predicate equals `i`, then `findIdx?` returns `i`. -/
theorem findIdx?_eq_some_of_unique {α : Type _} {p : α → Bool} :
    ∀ {l : List α} {i : Nat} {c : α}, l[i]? = some c → p c = true →
      (∀ j cj, l[j]? = some cj → p cj = true → j = i) → l.findIdx? p = some i := by
  intro l
  induction l with
  | nil => intro i c h; simp at h
  | cons x xs ih =>
    intro i c h hp huniq
    rw [List.findIdx?_cons]
    by_cases hx : p x
    · have h0 : (0 : Nat) = i := huniq 0 x (by simp) hx
      simp [hx, ← h0]
    · have hine : i ≠ 0 := by
        rintro rfl
        simp at h
        subst h
        exact hx hp
      obtain ⟨i', rfl⟩ : ∃ i', i = i' + 1 := ⟨i - 1, by omega⟩
      simp only [List.getElem?_cons_succ] at h
      have := ih h hp (fun j cj hj hpj => by
        have := huniq (j + 1) cj (by simpa using hj) hpj
        omega)
      simp [hx, List.findIdx?_succ, this]

/-- Replacing an element with one on which the predicate agrees does not
change `countP`. -/
theorem countP_set_congr {α : Type _} (p : α → Bool) :
    ∀ (l : List α) (j : Nat) (a c : α), l[j]? = some c → p a = p c →
      (l.set j a).countP p = l.countP p := by
  intro l
  induction l with
  | nil => intro j a c h; simp at h
  | cons x xs ih =>
    intro j a c h hp
    cases j with
    | zero =>
      simp at h
      subst h
      simp [List.countP_cons, hp]
    | succ j' =>
      simp only [List.getElem?_cons_succ] at h
      simp [List.countP_cons, ih j' a c h hp]

/-- Characterization of the `reduce`-style running maximum in
`formatMetrics`. -/
theorem foldl_max_spec {α : Type _} (f : α → Nat) :
    ∀ (l : List α) (a : Nat),
      a ≤ l.foldl (fun mx c => if f c > mx then f c else mx) a ∧
      (∀ c ∈ l, f c ≤ l.foldl (fun mx c => if f c > mx then f c else mx) a) ∧
      (l.foldl (fun mx c => if f c > mx then f c else mx) a = a ∨
        ∃ c ∈ l, l.foldl (fun mx c => if f c > mx then f c else mx) a = f c) := by
  intro l
  induction l with
  | nil => intro a; simp
  | cons x xs ih =>
    intro a
    simp only [List.foldl_cons]
    obtain ⟨h1, h2, h3⟩ := ih (if f x > a then f x else a)
    have hstep : a ≤ (if f x > a then f x else a) := by split <;> omega
    have hx : f x ≤ (if f x > a then f x else a) := by split <;> omega
    refine ⟨Nat.le_trans hstep h1, ?_, ?_⟩
    · intro c hc
      rcases List.mem_cons.mp hc with rfl | hc
      · exact Nat.le_trans hx h1
      · exact h2 c hc
    · rcases h3 with h3 | ⟨c, hc, h3⟩
      · by_cases hgt : f x > a
        · right; exact ⟨x, List.mem_cons_self x xs, by simpa [hgt] using h3⟩
        · left; simpa [hgt] using h3
      · right; exact ⟨c, List.mem_cons_of_mem x hc, h3⟩

/-! ### Property classifier characterization -/

/-- The predicate "this property symbol qualifies for the bucket and its
first declaration carries a private modifier". -/
def qualPrivate (propType : PropKind) (p : PropSymbol) : Bool :=
  match p.declarations.head? with
  | some d => isOfType propType d && isPrivate d
  | none => false

/-- What a classification step does to the `own` list. -/
theorem analyzeStep_own (propType : PropKind) (parentProps : List PropDecl)
    (classDecl : Option Nat) (pm : PropertyMetrics) (prop : PropSymbol) :
    (PropertyMetrics.analyzeStep propType parentProps classDecl pm prop).own =
      match prop.declarations.head? with
      | some d =>
        if isOfType propType d && !(parentProps.any (fun q => q.name == d.name)) then
          pm.own ++ [d]
        else pm.own
      | none => pm.own := by
  unfold PropertyMetrics.analyzeStep
  cases h : prop.declarations.head? with
  | none => simp
  | some d =>
    cases hT : isOfType propType d <;> cases hP : isPrivate d <;>
      cases hI : parentProps.any (fun q => q.name == d.name) <;>
        cases hC : (some d.parent == classDecl) <;> simp [hT, hP, hI, hC]

/-- What a classification step does to the `inherited` list. -/
theorem analyzeStep_inherited (propType : PropKind) (parentProps : List PropDecl)
    (classDecl : Option Nat) (pm : PropertyMetrics) (prop : PropSymbol) :
    (PropertyMetrics.analyzeStep propType parentProps classDecl pm prop).inherited =
      match prop.declarations.head? with
      | some d =>
        if isOfType propType d && parentProps.any (fun q => q.name == d.name) &&
            !(some d.parent == classDecl) then
          pm.inherited ++ [d]
        else pm.inherited
      | none => pm.inherited := by
  unfold PropertyMetrics.analyzeStep
  cases h : prop.declarations.head? with
  | none => simp
  | some d =>
    cases hT : isOfType propType d <;> cases hP : isPrivate d <;>
      cases hI : parentProps.any (fun q => q.name == d.name) <;>
        cases hC : (some d.parent == classDecl) <;> simp [hT, hP, hI, hC]

/-- What a classification step does to the `overridden` list. -/
theorem analyzeStep_overridden (propType : PropKind) (parentProps : List PropDecl)
    (classDecl : Option Nat) (pm : PropertyMetrics) (prop : PropSymbol) :
    (PropertyMetrics.analyzeStep propType parentProps classDecl pm prop).overridden =
      match prop.declarations.head? with
      | some d =>
        if isOfType propType d && parentProps.any (fun q => q.name == d.name) &&
            (some d.parent == classDecl) then
          pm.overridden ++ [d]
        else pm.overridden
      | none => pm.overridden := by
  unfold PropertyMetrics.analyzeStep
  cases h : prop.declarations.head? with
  | none => simp
  | some d =>
    cases hT : isOfType propType d <;> cases hP : isPrivate d <;>
      cases hI : parentProps.any (fun q => q.name == d.name) <;>
        cases hC : (some d.parent == classDecl) <;> simp [hT, hP, hI, hC]

/-- What a classification step does to `privateCount`. -/
theorem analyzeStep_privateCount (propType : PropKind) (parentProps : List PropDecl)
    (classDecl : Option Nat) (pm : PropertyMetrics) (prop : PropSymbol) :
    (PropertyMetrics.analyzeStep propType parentProps classDecl pm prop).privateCount =
      pm.privateCount + (if qualPrivate propType prop then 1 else 0) := by
  unfold PropertyMetrics.analyzeStep qualPrivate
  cases h : prop.declarations.head? with
  | none => simp
  | some d =>
    cases hT : isOfType propType d <;> cases hP : isPrivate d <;>
      cases hI : parentProps.any (fun q => q.name == d.name) <;>
        cases hC : (some d.parent == classDecl) <;> simp [hT, hP, hI, hC]

/-- Membership in the three buckets after folding the classifier over a list
of property symbols. -/
theorem foldl_analyzeStep_mem (propType : PropKind) (parentProps : List PropDecl)
    (classDecl : Option Nat) :
    ∀ (props : List PropSymbol) (pm : PropertyMetrics) (d : PropDecl),
      (d ∈ (props.foldl (PropertyMetrics.analyzeStep propType parentProps classDecl) pm).own ↔
        d ∈ pm.own ∨ ((∃ p ∈ props, p.declarations.head? = some d) ∧ isOfType propType d = true ∧
          parentProps.any (fun q => q.name == d.name) = false)) ∧
      (d ∈ (props.foldl (PropertyMetrics.analyzeStep propType parentProps classDecl) pm).inherited ↔
        d ∈ pm.inherited ∨ ((∃ p ∈ props, p.declarations.head? = some d) ∧ isOfType propType d = true ∧
          parentProps.any (fun q => q.name == d.name) = true ∧ (some d.parent == classDecl) = false)) ∧
      (d ∈ (props.foldl (PropertyMetrics.analyzeStep propType parentProps classDecl) pm).overridden ↔
        d ∈ pm.overridden ∨ ((∃ p ∈ props, p.declarations.head? = some d) ∧ isOfType propType d = true ∧
          parentProps.any (fun q => q.name == d.name) = true ∧ (some d.parent == classDecl) = true)) := by
  intro props
  induction props with
  | nil => intro pm d; simp
  | cons prop rest ih =>
    intro pm d
    simp only [List.foldl_cons]
    obtain ⟨ihO, ihI, ihV⟩ := ih (PropertyMetrics.analyzeStep propType parentProps classDecl pm prop) d
    refine ⟨?_, ?_, ?_⟩
    · rw [ihO, analyzeStep_own]
      cases h : prop.declarations.head? with
      | none =>
        dsimp only
        simp only [List.mem_cons]
        constructor
        · rintro (hd | hrest)
          · exact Or.inl hd
          · exact Or.inr ⟨⟨hrest.1.choose, Or.inr hrest.1.choose_spec.1, hrest.1.choose_spec.2⟩, hrest.2⟩
        · rintro (hd | ⟨⟨p, hp | hp, hpd⟩, hq⟩)
          · exact Or.inl hd
          · subst hp; rw [h] at hpd; exact absurd hpd (by simp)
          · exact Or.inr ⟨⟨p, hp, hpd⟩, hq⟩
      | some d0 =>
        dsimp only
        by_cases hcond : isOfType propType d0 = true ∧
            parentProps.any (fun q => q.name == d0.name) = false
        · rw [if_pos (by simp [hcond.1, hcond.2])]
          simp only [List.mem_append, List.mem_singleton, List.mem_cons, List.not_mem_nil, or_false]
          constructor
          · rintro ((hd | rfl) | hrest)
            · exact Or.inl hd
            · exact Or.inr ⟨⟨prop, Or.inl rfl, h⟩, hcond.1, hcond.2⟩
            · exact Or.inr ⟨⟨hrest.1.choose, Or.inr hrest.1.choose_spec.1, hrest.1.choose_spec.2⟩,
                hrest.2⟩
          · rintro (hd | ⟨⟨p, hp | hp, hpd⟩, hq⟩)
            · exact Or.inl (Or.inl hd)
            · subst hp; rw [h] at hpd
              exact Or.inl (Or.inr (by injection hpd with hh; exact hh.symm))
            · exact Or.inr ⟨⟨p, hp, hpd⟩, hq⟩
        · rw [if_neg (by
            intro hb
            rw [Bool.and_eq_true, Bool.not_eq_true'] at hb
            exact hcond ⟨hb.1, hb.2⟩)]
          simp only [List.mem_cons]
          constructor
          · rintro (hd | hrest)
            · exact Or.inl hd
            · exact Or.inr ⟨⟨hrest.1.choose, Or.inr hrest.1.choose_spec.1, hrest.1.choose_spec.2⟩,
                hrest.2⟩
          · rintro (hd | ⟨⟨p, hp | hp, hpd⟩, hq⟩)
            · exact Or.inl hd
            · subst hp; rw [h] at hpd
              injection hpd with hh
              subst hh
              exact absurd ⟨hq.1, hq.2⟩ hcond
            · exact Or.inr ⟨⟨p, hp, hpd⟩, hq⟩
    · rw [ihI, analyzeStep_inherited]
      cases h : prop.declarations.head? with
      | none =>
        dsimp only
        simp only [List.mem_cons]
        constructor
        · rintro (hd | hrest)
          · exact Or.inl hd
          · exact Or.inr ⟨⟨hrest.1.choose, Or.inr hrest.1.choose_spec.1, hrest.1.choose_spec.2⟩,
              hrest.2⟩
        · rintro (hd | ⟨⟨p, hp | hp, hpd⟩, hq⟩)
          · exact Or.inl hd
          · subst hp; rw [h] at hpd; exact absurd hpd (by simp)
          · exact Or.inr ⟨⟨p, hp, hpd⟩, hq⟩
      | some d0 =>
        dsimp only
        by_cases hcond : isOfType propType d0 = true ∧
            parentProps.any (fun q => q.name == d0.name) = true ∧
            (some d0.parent == classDecl) = false
        · rw [if_pos (by simp [hcond.1, hcond.2.1, hcond.2.2])]
          simp only [List.mem_append, List.mem_singleton, List.mem_cons, List.not_mem_nil, or_false]
          constructor
          · rintro ((hd | rfl) | hrest)
            · exact Or.inl hd
            · exact Or.inr ⟨⟨prop, Or.inl rfl, h⟩, hcond.1, hcond.2.1, hcond.2.2⟩
            · exact Or.inr ⟨⟨hrest.1.choose, Or.inr hrest.1.choose_spec.1, hrest.1.choose_spec.2⟩,
                hrest.2⟩
          · rintro (hd | ⟨⟨p, hp | hp, hpd⟩, hq⟩)
            · exact Or.inl (Or.inl hd)
            · subst hp; rw [h] at hpd
              exact Or.inl (Or.inr (by injection hpd with hh; exact hh.symm))
            · exact Or.inr ⟨⟨p, hp, hpd⟩, hq⟩
        · rw [if_neg (by
            intro hb
            rw [Bool.and_eq_true, Bool.and_eq_true, Bool.not_eq_true'] at hb
            exact hcond ⟨hb.1.1, hb.1.2, hb.2⟩)]
          simp only [List.mem_cons]
          constructor
          · rintro (hd | hrest)
            · exact Or.inl hd
            · exact Or.inr ⟨⟨hrest.1.choose, Or.inr hrest.1.choose_spec.1, hrest.1.choose_spec.2⟩,
                hrest.2⟩
          · rintro (hd | ⟨⟨p, hp | hp, hpd⟩, hq⟩)
            · exact Or.inl hd
            · subst hp; rw [h] at hpd
              injection hpd with hh
              subst hh
              exact absurd ⟨hq.1, hq.2.1, hq.2.2⟩ hcond
            · exact Or.inr ⟨⟨p, hp, hpd⟩, hq⟩
    · rw [ihV, analyzeStep_overridden]
      cases h : prop.declarations.head? with
      | none =>
        dsimp only
        simp only [List.mem_cons]
        constructor
        · rintro (hd | hrest)
          · exact Or.inl hd
          · exact Or.inr ⟨⟨hrest.1.choose, Or.inr hrest.1.choose_spec.1, hrest.1.choose_spec.2⟩,
              hrest.2⟩
        · rintro (hd | ⟨⟨p, hp | hp, hpd⟩, hq⟩)
          · exact Or.inl hd
          · subst hp; rw [h] at hpd; exact absurd hpd (by simp)
          · exact Or.inr ⟨⟨p, hp, hpd⟩, hq⟩
      | some d0 =>
        dsimp only
        by_cases hcond : isOfType propType d0 = true ∧
            parentProps.any (fun q => q.name == d0.name) = true ∧
            (some d0.parent == classDecl) = true
        · rw [if_pos (by simp [hcond.1, hcond.2.1, hcond.2.2])]
          simp only [List.mem_append, List.mem_singleton, List.mem_cons, List.not_mem_nil, or_false]
          constructor
          · rintro ((hd | rfl) | hrest)
            · exact Or.inl hd
            · exact Or.inr ⟨⟨prop, Or.inl rfl, h⟩, hcond.1, hcond.2.1, hcond.2.2⟩
            · exact Or.inr ⟨⟨hrest.1.choose, Or.inr hrest.1.choose_spec.1, hrest.1.choose_spec.2⟩,
                hrest.2⟩
          · rintro (hd | ⟨⟨p, hp | hp, hpd⟩, hq⟩)
            · exact Or.inl (Or.inl hd)
            · subst hp; rw [h] at hpd
              exact Or.inl (Or.inr (by injection hpd with hh; exact hh.symm))
            · exact Or.inr ⟨⟨p, hp, hpd⟩, hq⟩
        · rw [if_neg (by
            intro hb
            rw [Bool.and_eq_true, Bool.and_eq_true] at hb
            exact hcond ⟨hb.1.1, hb.1.2, hb.2⟩)]
          simp only [List.mem_cons]
          constructor
          · rintro (hd | hrest)
            · exact Or.inl hd
            · exact Or.inr ⟨⟨hrest.1.choose, Or.inr hrest.1.choose_spec.1, hrest.1.choose_spec.2⟩,
                hrest.2⟩
          · rintro (hd | ⟨⟨p, hp | hp, hpd⟩, hq⟩)
            · exact Or.inl hd
            · subst hp; rw [h] at hpd
              injection hpd with hh
              subst hh
              exact absurd ⟨hq.1, hq.2.1, hq.2.2⟩ hcond
            · exact Or.inr ⟨⟨p, hp, hpd⟩, hq⟩

/-- Field `privateCount` after folding the classifier counts exactly the
qualifying private properties. -/
theorem foldl_analyzeStep_privateCount (propType : PropKind) (parentProps : List PropDecl)
    (classDecl : Option Nat) :
    ∀ (props : List PropSymbol) (pm : PropertyMetrics),
      (props.foldl (PropertyMetrics.analyzeStep propType parentProps classDecl) pm).privateCount =
        pm.privateCount + props.countP (qualPrivate propType) := by
  intro props
  induction props with
  | nil => intro pm; simp
  | cons prop rest ih =>
    intro pm
    simp only [List.foldl_cons, List.countP_cons]
    rw [ih, analyzeStep_privateCount]
    omega

/-! ### Aggregation characterization -/

/-- The aggregation loop computes, for each of the five metrics, the sum of
the per-class numerators and the sum of the per-class denominators. -/
theorem foldl_aggStep_totals (l : List ClassMetrics) : ∀ (t : MoodTotals),
    l.foldl aggStep t =
      { mif := { divided := t.mif.divided +
                   (l.map (fun c => c.methods.inherited.length + c.methods.own.length)).sum
                 divider := t.mif.divider + (l.map (fun c => c.methods.length)).sum }
        aif := { divided := t.aif.divided +
                   (l.map (fun c => c.attributes.inherited.length + c.attributes.own.length)).sum
                 divider := t.aif.divider + (l.map (fun c => c.attributes.length)).sum }
        mhf := { divided := t.mhf.divided + (l.map (fun c => c.methods.privateCount)).sum
                 divider := t.mhf.divider + (l.map (fun c => c.methods.length)).sum }
        ahf := { divided := t.ahf.divided + (l.map (fun c => c.attributes.privateCount)).sum
                 divider := t.ahf.divider + (l.map (fun c => c.attributes.length)).sum }
        pof := { divided := t.pof.divided +
                   (l.map (fun c => c.methods.inherited.length + c.methods.overridden.length)).sum
                 divider := t.pof.divider +
                   (l.map (fun c => c.methods.own.length * c.numberOfChildren)).sum } } := by
  induction l with
  | nil => intro t; simp
  | cons c l ih =>
    intro t
    rw [List.foldl_cons, ih]
    simp only [aggStep, List.map_cons, List.sum_cons, MoodTotals.mk.injEq, MoodMetric.mk.injEq]
    omega

/-- A `MoodMetric` with zero denominator calculates to a sentinel value. -/
theorem calculate_sentinel_of_divider_zero (m : MoodMetric) (h : m.divider = 0) :
    m.calculate.isSentinel = true := by
  unfold MoodMetric.calculate
  rw [if_pos h]
  split <;> rfl

/-! ### Concrete sample environment (used by witnesses)

Class `A` (a root with public methods `m1`, `m2`) and class `B` extending `A`
(overriding `m1`, inheriting `m2`, adding a private method `m3`). -/

/-- Sample: `A.m1` property symbol. -/
def mA : PropSymbol := ⟨[⟨.methodDeclaration, "m1", [], 10⟩]⟩

/-- Sample: `A.m2` property symbol. -/
def mA2 : PropSymbol := ⟨[⟨.methodDeclaration, "m2", [], 10⟩]⟩

/-- Sample: `B.m1` override property symbol. -/
def mB1 : PropSymbol := ⟨[⟨.methodDeclaration, "m1", [], 11⟩]⟩

/-- Sample: `B.m3` private method property symbol. -/
def mB3 : PropSymbol := ⟨[⟨.methodDeclaration, "m3", [.privateKeyword], 11⟩]⟩

/-- Sample: `m2` as surfaced unchanged on `B` (declared on `A`'s node). -/
def mBinh : PropSymbol := ⟨[⟨.methodDeclaration, "m2", [], 10⟩]⟩

/-- Sample root class type `A` (declaration node 10). -/
def tyA : ClassType := ⟨"A", [10], [], [mA, mA2]⟩

/-- Sample class type `B` extending `A` (declaration node 11, base type 0). -/
def tyB : ClassType := ⟨"B", [11], [0], [mB1, mBinh, mB3]⟩

/-- Sample two-class environment. -/
def env2 : Env := ⟨[tyA, tyB], fun n => "f.ts:" ++ toString n⟩

/-- The analysis result of the sample environment (resolving `B` pulls in
`A` through the parent lookup). -/
def sampleResult : AnalyzeResult := (Analyzer.analyze env2 2 [1]).toOption.getD default

/-- The analysis result of an empty program. -/
def emptyResult : AnalyzeResult :=
  { classes := [], mif := .nan, aif := .nan, mhf := .nan, ahf := .nan, pof := .nan }

/-! ### Claims C1, C3, C7, C8, C9 -/

/-- C1: each of the five output ratios of `Analyzer.analyze` is the aggregate
fraction — the sum over all classes of the per-class numerator divided by the
sum over all classes of the per-class denominator, with exactly the table's
terms (MIF: (inherited+own methods)/methods.length; AIF: the same for
attributes; MHF: methods.privateCount/methods.length; AHF: the same for
attributes; POF: (inherited+overridden methods)/(own methods ×
numberOfChildren)) — not a mean of per-class ratios. -/
theorem mood_ratios_are_aggregate_fractions (env : Env) (fuel : Nat) (nodes : List Nat)
    (r : AnalyzeResult) (h : Analyzer.analyze env fuel nodes = .ok r) :
    r.mif = MoodMetric.calculate
        { divided := (r.classes.map (fun c => c.methods.inherited.length + c.methods.own.length)).sum
          divider := (r.classes.map (fun c => c.methods.length)).sum } ∧
    r.aif = MoodMetric.calculate
        { divided := (r.classes.map (fun c => c.attributes.inherited.length + c.attributes.own.length)).sum
          divider := (r.classes.map (fun c => c.attributes.length)).sum } ∧
    r.mhf = MoodMetric.calculate
        { divided := (r.classes.map (fun c => c.methods.privateCount)).sum
          divider := (r.classes.map (fun c => c.methods.length)).sum } ∧
    r.ahf = MoodMetric.calculate
        { divided := (r.classes.map (fun c => c.attributes.privateCount)).sum
          divider := (r.classes.map (fun c => c.attributes.length)).sum } ∧
    r.pof = MoodMetric.calculate
        { divided := (r.classes.map (fun c => c.methods.inherited.length + c.methods.overridden.length)).sum
          divider := (r.classes.map (fun c => c.methods.own.length * c.numberOfChildren)).sum } := by
  cases hrun : analyzeClasses env fuel nodes [] with
  | error e =>
    rw [Analyzer.analyze, hrun] at h
    exact absurd h (by simp)
  | ok classes =>
    rw [Analyzer.analyze, hrun] at h
    simp only [Except.ok.injEq] at h
    subst h
    rw [foldl_aggStep_totals]
    simp

/-- C1 witness: the theorem applied to the concrete two-class sample run. -/
theorem mood_ratios_are_aggregate_fractions_witness :
    Analyzer.analyze env2 2 [1] = .ok sampleResult ∧
    sampleResult.mif = MoodMetric.calculate
        { divided := (sampleResult.classes.map
            (fun c => c.methods.inherited.length + c.methods.own.length)).sum
          divider := (sampleResult.classes.map (fun c => c.methods.length)).sum } :=
  ⟨rfl, (mood_ratios_are_aggregate_fractions env2 2 [1] sampleResult rfl).1⟩

/-- C3: for every class and property kind, a qualifying property (one whose
first declaration exists and matches the kind's syntactic shape) lands in
`own` exactly when its name has no match in the parent's finalized union, in
`inherited` exactly when it matches and its enclosing declaration is not the
current class's declaration, and in `overridden` exactly when it matches and
its enclosing declaration is the current class's declaration; consequently
the three buckets are pairwise disjoint. -/
theorem property_partition_by_parent_lookup (propType : PropKind)
    (parent : Option ClassMetrics) (ty : ClassType) (d : PropDecl) :
    (d ∈ (PropertyMetrics.analyze {} propType parent ty).own ↔
      (∃ p ∈ ty.props, p.declarations.head? = some d) ∧ isOfType propType d = true ∧
        ((parentPropsOf parent propType).any (fun q => q.name == d.name)) = false) ∧
    (d ∈ (PropertyMetrics.analyze {} propType parent ty).inherited ↔
      (∃ p ∈ ty.props, p.declarations.head? = some d) ∧ isOfType propType d = true ∧
        ((parentPropsOf parent propType).any (fun q => q.name == d.name)) = true ∧
        (some d.parent == ty.decls.head?) = false) ∧
    (d ∈ (PropertyMetrics.analyze {} propType parent ty).overridden ↔
      (∃ p ∈ ty.props, p.declarations.head? = some d) ∧ isOfType propType d = true ∧
        ((parentPropsOf parent propType).any (fun q => q.name == d.name)) = true ∧
        (some d.parent == ty.decls.head?) = true) ∧
    (d ∈ (PropertyMetrics.analyze {} propType parent ty).own →
      d ∉ (PropertyMetrics.analyze {} propType parent ty).inherited) ∧
    (d ∈ (PropertyMetrics.analyze {} propType parent ty).own →
      d ∉ (PropertyMetrics.analyze {} propType parent ty).overridden) ∧
    (d ∈ (PropertyMetrics.analyze {} propType parent ty).inherited →
      d ∉ (PropertyMetrics.analyze {} propType parent ty).overridden) := by
  obtain ⟨hO, hI, hV⟩ :=
    foldl_analyzeStep_mem propType (parentPropsOf parent propType) ty.decls.head? ty.props
      {} d
  have hO' : d ∈ (PropertyMetrics.analyze {} propType parent ty).own ↔
      (∃ p ∈ ty.props, p.declarations.head? = some d) ∧ isOfType propType d = true ∧
        ((parentPropsOf parent propType).any (fun q => q.name == d.name)) = false := by
    rw [PropertyMetrics.analyze]
    rw [hO]
    simp
  have hI' : d ∈ (PropertyMetrics.analyze {} propType parent ty).inherited ↔
      (∃ p ∈ ty.props, p.declarations.head? = some d) ∧ isOfType propType d = true ∧
        ((parentPropsOf parent propType).any (fun q => q.name == d.name)) = true ∧
        (some d.parent == ty.decls.head?) = false := by
    rw [PropertyMetrics.analyze]
    rw [hI]
    simp
  have hV' : d ∈ (PropertyMetrics.analyze {} propType parent ty).overridden ↔
      (∃ p ∈ ty.props, p.declarations.head? = some d) ∧ isOfType propType d = true ∧
        ((parentPropsOf parent propType).any (fun q => q.name == d.name)) = true ∧
        (some d.parent == ty.decls.head?) = true := by
    rw [PropertyMetrics.analyze]
    rw [hV]
    simp
  refine ⟨hO', hI', hV', ?_, ?_, ?_⟩
  · intro h1 h2
    rw [hO'] at h1
    rw [hI'] at h2
    rw [h1.2.2] at h2
    exact absurd h2.2.2.1 (by simp)
  · intro h1 h2
    rw [hO'] at h1
    rw [hV'] at h2
    rw [h1.2.2] at h2
    exact absurd h2.2.2.1 (by simp)
  · intro h1 h2
    rw [hI'] at h1
    rw [hV'] at h2
    rw [h1.2.2.2] at h2
    exact absurd h2.2.2.2 (by simp)

/-- C3 witness: in the sample, `A.m1` is classified as `own` for the root
class `A` (no parent), via the theorem's `own` characterization. -/
theorem property_partition_by_parent_lookup_witness :
    (⟨.methodDeclaration, "m1", [], 10⟩ : PropDecl) ∈
      (PropertyMetrics.analyze {} .methods none tyA).own :=
  (property_partition_by_parent_lookup .methods none tyA _).1.mpr
    ⟨⟨mA, by simp [tyA], by simp [mA]⟩, by decide, by decide⟩

/-- C7: for every bucket, `length()` is |own| + |inherited| + |overridden| +
privateCount, and `privateCount` after classification counts every qualifying
property carrying a private modifier, independently of which of the three
sets the property landed in (hence a private property in one of the three
sets contributes twice to `length()`). -/
theorem bucket_length_adds_private_count :
    (∀ pm : PropertyMetrics,
      pm.length = pm.own.length + pm.inherited.length + pm.overridden.length + pm.privateCount) ∧
    (∀ (propType : PropKind) (parent : Option ClassMetrics) (ty : ClassType),
      (PropertyMetrics.analyze {} propType parent ty).privateCount =
        ty.props.countP (qualPrivate propType)) := by
  constructor
  · intro pm
    rw [PropertyMetrics.length, PropertyMetrics.allProps]
    simp [List.length_append]
    omega
  · intro propType parent ty
    rw [PropertyMetrics.analyze]
    rw [foldl_analyzeStep_privateCount]
    simp

/-- C8: if the traversal succeeds, the whole analysis succeeds — a zero total
denominator is never an error — and every ratio whose total denominator is
zero is the non-finite sentinel; in particular for a program with zero
classes all five ratios are `NaN`. -/
theorem zero_denominator_sentinel_and_success (env : Env) (fuel : Nat) (nodes : List Nat)
    (s : List ClassMetrics) (h : analyzeClasses env fuel nodes [] = .ok s) :
    ∃ r, Analyzer.analyze env fuel nodes = .ok r ∧ r.classes = s ∧
      ((s.map (fun c => c.methods.length)).sum = 0 → r.mif.isSentinel = true) ∧
      ((s.map (fun c => c.attributes.length)).sum = 0 → r.aif.isSentinel = true) ∧
      ((s.map (fun c => c.methods.length)).sum = 0 → r.mhf.isSentinel = true) ∧
      ((s.map (fun c => c.attributes.length)).sum = 0 → r.ahf.isSentinel = true) ∧
      ((s.map (fun c => c.methods.own.length * c.numberOfChildren)).sum = 0 →
        r.pof.isSentinel = true) ∧
      (nodes = [] → s = [] ∧ r.mif = .nan ∧ r.aif = .nan ∧ r.mhf = .nan ∧ r.ahf = .nan ∧
        r.pof = .nan) := by
  refine ⟨_, by rw [Analyzer.analyze, h], rfl, ?_, ?_, ?_, ?_, ?_, ?_⟩
  · intro h0
    rw [foldl_aggStep_totals]
    exact calculate_sentinel_of_divider_zero _ (by simpa using h0)
  · intro h0
    rw [foldl_aggStep_totals]
    exact calculate_sentinel_of_divider_zero _ (by simpa using h0)
  · intro h0
    rw [foldl_aggStep_totals]
    exact calculate_sentinel_of_divider_zero _ (by simpa using h0)
  · intro h0
    rw [foldl_aggStep_totals]
    exact calculate_sentinel_of_divider_zero _ (by simpa using h0)
  · intro h0
    rw [foldl_aggStep_totals]
    exact calculate_sentinel_of_divider_zero _ (by simpa using h0)
  · rintro rfl
    have hs : s = [] := by
      rw [analyzeClasses] at h
      exact (Except.ok.injEq _ _).mp h.symm
    subst hs
    simp [foldl_aggStep_totals, MoodMetric.calculate]

/-- C8 witness: the theorem applied to the empty program. -/
theorem zero_denominator_sentinel_and_success_witness :
    Analyzer.analyze env2 0 [] = .ok emptyResult ∧ emptyResult.mif = JSNumber.nan := by
  obtain ⟨r, hr, _, _, _, _, _, _, hempty⟩ :=
    zero_denominator_sentinel_and_success env2 0 [] [] rfl
  have hr' : Analyzer.analyze env2 0 [] = .ok emptyResult := rfl
  rw [hr'] at hr
  have heq : emptyResult = r := by injection hr
  refine ⟨hr', ?_⟩
  rw [heq]
  exact (hempty rfl).2.1

/-- C9: the formatter projects each class to exactly
`{className, numberOfChildren, depthOfInheritance, parentClass?}`, omitting
`parentClass` when the stored name is empty, passes the five ratios through,
and emits `maxNumberOfChildren` / `maxDepthOfInheritance` equal to the
maximum of the respective field over all classes, or `0` when there are no
classes. -/
theorem formatMetrics_projection_and_maxima (r : AnalyzeResult) :
    (formatMetrics r).classes = r.classes.map (fun oneClass =>
      { className := oneClass.className
        numberOfChildren := oneClass.numberOfChildren
        depthOfInheritance := oneClass.depthOfInheritance
        parentClass :=
          if oneClass.parentClass = "" then none else some oneClass.parentClass }) ∧
    (formatMetrics r).mif = r.mif ∧ (formatMetrics r).aif = r.aif ∧
    (formatMetrics r).mhf = r.mhf ∧ (formatMetrics r).ahf = r.ahf ∧
    (formatMetrics r).pof = r.pof ∧
    (r.classes = [] → (formatMetrics r).maxNumberOfChildren = 0 ∧
      (formatMetrics r).maxDepthOfInheritance = 0) ∧
    (∀ c ∈ r.classes, c.numberOfChildren ≤ (formatMetrics r).maxNumberOfChildren ∧
      c.depthOfInheritance ≤ (formatMetrics r).maxDepthOfInheritance) ∧
    (r.classes ≠ [] →
      (∃ c ∈ r.classes, (formatMetrics r).maxNumberOfChildren = c.numberOfChildren) ∧
      (∃ c ∈ r.classes, (formatMetrics r).maxDepthOfInheritance = c.depthOfInheritance)) := by
  obtain ⟨hn1, hn2, hn3⟩ := foldl_max_spec (fun c : ClassMetrics => c.numberOfChildren) r.classes 0
  obtain ⟨hd1, hd2, hd3⟩ := foldl_max_spec (fun c : ClassMetrics => c.depthOfInheritance) r.classes 0
  have hfn : (formatMetrics r).maxNumberOfChildren =
      r.classes.foldl (fun mx c => if c.numberOfChildren > mx then c.numberOfChildren else mx) 0 :=
    rfl
  have hfd : (formatMetrics r).maxDepthOfInheritance =
      r.classes.foldl
        (fun mx c => if c.depthOfInheritance > mx then c.depthOfInheritance else mx) 0 :=
    rfl
  refine ⟨rfl, rfl, rfl, rfl, rfl, rfl, ?_, ?_, ?_⟩
  · rintro hcl
    rw [hfn, hfd, hcl]
    simp
  · intro c hc
    exact ⟨hn2 c hc, hd2 c hc⟩
  · intro hne
    obtain ⟨c0, hc0⟩ := List.exists_mem_of_ne_nil r.classes hne
    constructor
    · rcases hn3 with h3 | ⟨c, hc, h3⟩
      · refine ⟨c0, hc0, ?_⟩
        have := hn2 c0 hc0
        rw [hfn, h3]
        rw [h3] at this
        omega
      · exact ⟨c, hc, by rw [hfn, h3]⟩
    · rcases hd3 with h3 | ⟨c, hc, h3⟩
      · refine ⟨c0, hc0, ?_⟩
        have := hd2 c0 hc0
        rw [hfd, h3]
        rw [h3] at this
        omega
      · exact ⟨c, hc, by rw [hfd, h3]⟩

/-- C9 witness: the ratio pass-through on the concrete sample result. -/
theorem formatMetrics_projection_and_maxima_witness :
    (formatMetrics sampleResult).mif = sampleResult.mif :=
  (formatMetrics_projection_and_maxima sampleResult).2.1

/-! ### Registry invariants of the hierarchy resolver -/

/-- Two `ClassMetrics` agreeing on every field that is never mutated after
creation (everything except `numberOfChildren`). -/
def sameCore (a b : ClassMetrics) : Prop :=
  a.className = b.className ∧ a.classPath = b.classPath ∧ a.parentClass = b.parentClass ∧
  a.depthOfInheritance = b.depthOfInheritance ∧ a.methods = b.methods ∧
  a.attributes = b.attributes

theorem sameCore_refl (a : ClassMetrics) : sameCore a a :=
  ⟨rfl, rfl, rfl, rfl, rfl, rfl⟩

theorem sameCore_trans {a b c : ClassMetrics} (h1 : sameCore a b) (h2 : sameCore b c) :
    sameCore a c :=
  ⟨h1.1.trans h2.1, h1.2.1.trans h2.2.1, h1.2.2.1.trans h2.2.2.1,
    h1.2.2.2.1.trans h2.2.2.2.1, h1.2.2.2.2.1.trans h2.2.2.2.2.1,
    h1.2.2.2.2.2.trans h2.2.2.2.2.2⟩

/-- Registry evolution: entries are only appended, and an existing entry
changes at most its `numberOfChildren`. -/
def Ext (s s' : List ClassMetrics) : Prop :=
  s.length ≤ s'.length ∧
  ∀ (i : Nat) (ci : ClassMetrics), s[i]? = some ci →
    ∃ ci', s'[i]? = some ci' ∧ sameCore ci ci'

theorem Ext_refl (s : List ClassMetrics) : Ext s s :=
  ⟨Nat.le_refl _, fun _ ci h => ⟨ci, h, sameCore_refl ci⟩⟩

theorem Ext_trans {s1 s2 s3 : List ClassMetrics} (h1 : Ext s1 s2) (h2 : Ext s2 s3) :
    Ext s1 s3 := by
  refine ⟨Nat.le_trans h1.1 h2.1, fun i ci h => ?_⟩
  obtain ⟨ci', h', hc'⟩ := h1.2 i ci h
  obtain ⟨ci'', h'', hc''⟩ := h2.2 i ci' h'
  exact ⟨ci'', h'', sameCore_trans hc' hc''⟩

/-- Well-formedness of the external semantic model, as the TypeScript
checker guarantees it: pairwise distinct, nonempty printed class names, and
base types listed before their subclasses (no inheritance cycles). -/
def EnvWF (env : Env) : Prop :=
  (∀ t1, t1 < env.types.length → ∀ t2, t2 < env.types.length →
    (env.types.getD t1 default).name = (env.types.getD t2 default).name → t1 = t2) ∧
  (∀ t, t < env.types.length → (env.types.getD t default).name ≠ "") ∧
  (∀ t, t < env.types.length → ∀ b ∈ (env.types.getD t default).baseTypes, b < t)

instance (env : Env) : Decidable (EnvWF env) := by
  unfold EnvWF
  infer_instance

theorem EnvWF.name_inj {env : Env} (h : EnvWF env) {t1 t2 : Nat} {ty1 ty2 : ClassType}
    (h1 : env.types[t1]? = some ty1) (h2 : env.types[t2]? = some ty2)
    (hn : ty1.name = ty2.name) : t1 = t2 := by
  obtain ⟨hl1, he1⟩ := List.getElem?_eq_some_iff.mp h1
  obtain ⟨hl2, he2⟩ := List.getElem?_eq_some_iff.mp h2
  refine h.1 t1 hl1 t2 hl2 ?_
  rw [List.getD_eq_getElem?_getD, List.getD_eq_getElem?_getD, h1, h2]
  exact hn

theorem EnvWF.name_nonempty {env : Env} (h : EnvWF env) {t : Nat} {ty : ClassType}
    (h1 : env.types[t]? = some ty) : ty.name ≠ "" := by
  obtain ⟨hl, he⟩ := List.getElem?_eq_some_iff.mp h1
  have := h.2.1 t hl
  rwa [List.getD_eq_getElem?_getD, h1] at this

theorem EnvWF.base_lt {env : Env} (h : EnvWF env) {t b : Nat} {ty : ClassType}
    (h1 : env.types[t]? = some ty) (hb : b ∈ ty.baseTypes) : b < t := by
  obtain ⟨hl, he⟩ := List.getElem?_eq_some_iff.mp h1
  refine h.2.2 t hl b ?_
  rwa [List.getD_eq_getElem?_getD, h1]

/-- A registry entry's identity matches the environment type `t`, which (as
for every registered class) has at most one base type. -/
def EntryOf (env : Env) (c : ClassMetrics) (t : Nat) : Prop :=
  ∃ ty, env.types[t]? = some ty ∧ c.className = ty.name ∧ c.classPath = typePath env ty ∧
    ty.baseTypes.length ≤ 1

/-- The registry invariant maintained by class resolution: distinct class
names; the depth recurrence with the parent registered earlier; the child
count equal to the number of registered children; every entry stemming from
an environment type. -/
def Inv (env : Env) (s : List ClassMetrics) : Prop :=
  (∀ (i j : Nat) (ci cj : ClassMetrics), s[i]? = some ci → s[j]? = some cj →
    ci.className = cj.className → i = j) ∧
  (∀ (i : Nat) (ci : ClassMetrics), s[i]? = some ci →
    (ci.parentClass = "" → ci.depthOfInheritance = 0) ∧
    (ci.parentClass ≠ "" → ∃ (j : Nat) (cj : ClassMetrics), j < i ∧ s[j]? = some cj ∧
      cj.className = ci.parentClass ∧
      ci.depthOfInheritance = cj.depthOfInheritance + 1)) ∧
  (∀ (j : Nat) (cj : ClassMetrics), s[j]? = some cj →
    cj.numberOfChildren = s.countP (fun c => c.parentClass == cj.className)) ∧
  (∀ (i : Nat) (ci : ClassMetrics), s[i]? = some ci → ∃ t, EntryOf env ci t)

theorem Inv_nil (env : Env) : Inv env [] := by
  refine ⟨?_, ?_, ?_, ?_⟩ <;> intro i <;> intros <;> simp_all

/-- One-step unfolding of `getClassMetrics`. -/
theorem getClassMetrics_unfold (env : Env) (fuel : Nat) (s : List ClassMetrics) (tid : Nat) :
    getClassMetrics env fuel s tid =
      match env.types[tid]? with
      | none => .error .missingType
      | some ty =>
        match s.findIdx? (fun c => c.className == ty.name && c.classPath == typePath env ty) with
        | some i => .ok (s, i)
        | none =>
          match ty.baseTypes with
          | [] => .ok (s ++ [mkClassMetrics ty.name (typePath env ty) none ty], s.length)
          | [b] =>
            match fuel with
            | 0 => .error .fuelExhausted
            | f + 1 =>
              match getClassMetrics env f s b with
              | .error e => .error e
              | .ok (s1, j) =>
                .ok ((s1.set j { s1.getD j default with
                        numberOfChildren := (s1.getD j default).numberOfChildren + 1 }) ++
                      [mkClassMetrics ty.name (typePath env ty) (some (s1.getD j default)) ty],
                      (s1.set j { s1.getD j default with
                        numberOfChildren := (s1.getD j default).numberOfChildren + 1 }).length)
          | _ :: _ :: _ => .error (.multipleInheritance ty.baseTypes.length) := by
  rw [getClassMetrics.eq_def]

/-- Main preservation lemma: a successful `getClassMetrics` call preserves
the registry invariant, only extends the registry (mutating at most child
counts of existing entries), returns the index of an entry carrying the
resolved type's identity, and every newly appended entry stems from an
environment type at or below the resolved type id. -/
theorem getClassMetrics_ok_spec (env : Env) (hW : EnvWF env) :
    ∀ (fuel : Nat) (s : List ClassMetrics) (tid : Nat) (s' : List ClassMetrics) (i : Nat),
      Inv env s → getClassMetrics env fuel s tid = .ok (s', i) →
      Inv env s' ∧ Ext s s' ∧
      (∃ ty ci, env.types[tid]? = some ty ∧ s'[i]? = some ci ∧
        ci.className = ty.name ∧ ci.classPath = typePath env ty) ∧
      (∀ (k : Nat) (ck : ClassMetrics), s.length ≤ k → s'[k]? = some ck →
        ∃ t, t ≤ tid ∧ EntryOf env ck t) := by
  intro fuel
  induction fuel using Nat.strong_induction_on with
  | _ fuel ih =>
    intro s tid s' i hInv hok
    rw [getClassMetrics_unfold] at hok
    cases hty : env.types[tid]? with
    | none =>
      rw [hty] at hok
      exact absurd hok (by simp)
    | some ty =>
      rw [hty] at hok
      dsimp only at hok
      cases hfind :
          s.findIdx? (fun c => c.className == ty.name && c.classPath == typePath env ty) with
      | some i0 =>
        rw [hfind] at hok
        dsimp only at hok
        simp only [Except.ok.injEq, Prod.mk.injEq] at hok
        obtain ⟨rfl, rfl⟩ := hok
        obtain ⟨c, hc, hpc⟩ := findIdx?_some_spec hfind
        rw [Bool.and_eq_true, beq_iff_eq, beq_iff_eq] at hpc
        refine ⟨hInv, Ext_refl s, ⟨ty, c, rfl, hc, hpc.1, hpc.2⟩, ?_⟩
        intro k ck hk hk'
        rw [List.getElem?_eq_none hk] at hk'
        exact absurd hk' (by simp)
      | none =>
        rw [hfind] at hok
        dsimp only at hok
        have hfindF := List.findIdx?_eq_none_iff.mp hfind
        have hfreshS : ∀ (k : Nat) (ck : ClassMetrics), s[k]? = some ck →
            ck.className ≠ ty.name := by
          intro k ck hk hcontra
          obtain ⟨t', ty', hty', hn', hp', hb'⟩ := hInv.2.2.2 k ck hk
          have ht' : t' = tid := hW.name_inj hty' hty (hn'.symm.trans hcontra)
          subst ht'
          rw [hty] at hty'
          injection hty' with hty''
          subst hty''
          have hfck := hfindF ck (List.getElem?_mem hk)
          rw [hcontra, hp'] at hfck
          simp at hfck
        cases hbase : ty.baseTypes with
        | nil =>
          rw [hbase] at hok
          dsimp only at hok
          simp only [Except.ok.injEq, Prod.mk.injEq] at hok
          obtain ⟨rfl, rfl⟩ := hok
          set X := mkClassMetrics ty.name (typePath env ty) none ty with hX
          have hXcn : X.className = ty.name := rfl
          have hXcp : X.classPath = typePath env ty := rfl
          have hXpc : X.parentClass = "" := rfl
          have hXd : X.depthOfInheritance = 0 := rfl
          have hXn : X.numberOfChildren = 0 := rfl
          have hS : ∀ (k : Nat), (s ++ [X])[k]? =
              if k < s.length then s[k]? else if k = s.length then some X else none :=
            fun k => getElem?_snoc s X k
          have hrep : ∀ (k : Nat) (c : ClassMetrics), (s ++ [X])[k]? = some c →
              (k < s.length ∧ s[k]? = some c) ∨ (k = s.length ∧ c = X) := by
            intro k c hkc
            rw [hS k] at hkc
            by_cases h1 : k < s.length
            · rw [if_pos h1] at hkc
              exact Or.inl ⟨h1, hkc⟩
            · rw [if_neg h1] at hkc
              by_cases h3 : k = s.length
              · rw [if_pos h3] at hkc
                injection hkc with he
                exact Or.inr ⟨h3, he.symm⟩
              · rw [if_neg h3] at hkc
                exact absurd hkc (by simp)
          have hnameNE : ∀ (k : Nat) (ck : ClassMetrics), s[k]? = some ck →
              ck.className ≠ "" := by
            intro k ck hkc
            obtain ⟨t0, ty0, h1', h2', _, _⟩ := hInv.2.2.2 k ck hkc
            rw [h2']
            exact hW.name_nonempty h1'
          refine ⟨⟨?_, ?_, ?_, ?_⟩, ?_, ?_, ?_⟩
          · -- distinct class names
            intro i1 i2 c1 c2 h1 h2 hcc
            rcases hrep i1 c1 h1 with ⟨hl1, hc1⟩ | ⟨he1, rfl⟩
            · rcases hrep i2 c2 h2 with ⟨hl2, hc2⟩ | ⟨he2, rfl⟩
              · exact hInv.1 i1 i2 c1 c2 hc1 hc2 hcc
              · exact absurd (by rw [hcc, hXcn]) (hfreshS i1 c1 hc1)
            · rcases hrep i2 c2 h2 with ⟨hl2, hc2⟩ | ⟨he2, rfl⟩
              · exact absurd (by rw [← hcc, hXcn]) (hfreshS i2 c2 hc2)
              · rw [he1, he2]
          · -- depth recurrence
            intro k ck hkc
            rcases hrep k ck hkc with ⟨hl, hc⟩ | ⟨rfl, rfl⟩
            · obtain ⟨hroot, hnonroot⟩ := hInv.2.1 k ck hc
              refine ⟨hroot, ?_⟩
              intro hne
              obtain ⟨j', cj', hj'k, hj'get, hj'n, hj'd⟩ := hnonroot hne
              refine ⟨j', cj', hj'k, ?_, hj'n, hj'd⟩
              rw [hS j', if_pos (by omega)]
              exact hj'get
            · refine ⟨fun _ => hXd, ?_⟩
              intro hne
              exact absurd hXpc hne
          · -- child counts
            intro k ck hkc
            have hcnt : ∀ (name : String),
                ((s ++ [X]).countP (fun c => c.parentClass == name)) =
                  s.countP (fun c => c.parentClass == name) +
                    (if X.parentClass == name then 1 else 0) := by
              intro name
              rw [List.countP_append]
              simp [List.countP_cons]
            rcases hrep k ck hkc with ⟨hl, hc⟩ | ⟨rfl, rfl⟩
            · rw [hcnt]
              have h0 := hInv.2.2.1 k ck hc
              have hne : (X.parentClass == ck.className) = false := by
                rw [hXpc, beq_eq_false_iff_ne]
                exact fun hcon => hnameNE k ck hc hcon.symm
              rw [hne, ← h0]
              simp
            · rw [hcnt, hXn]
              have hzero : s.countP (fun c => c.parentClass == X.className) = 0 := by
                rw [List.countP_eq_zero]
                intro c hcmem hcp
                have hcp' : c.parentClass = X.className := by simpa using hcp
                obtain ⟨kk, hkk⟩ := List.mem_iff_getElem?.mp hcmem
                by_cases hpe : c.parentClass = ""
                · rw [hpe, hXcn] at hcp'
                  exact hW.name_nonempty hty hcp'.symm
                · obtain ⟨j', cj', _, hj'get, hj'n, _⟩ := (hInv.2.1 kk c hkk).2 hpe
                  exact hfreshS j' cj' hj'get (by rw [hj'n, hcp', hXcn])
              have hXX : (X.parentClass == X.className) = false := by
                rw [hXpc, hXcn, beq_eq_false_iff_ne]
                exact fun hcon => hW.name_nonempty hty hcon.symm
              rw [hzero, hXX]
              simp
          · -- entries stem from the environment
            intro k ck hkc
            rcases hrep k ck hkc with ⟨hl, hc⟩ | ⟨rfl, rfl⟩
            · exact hInv.2.2.2 k ck hc
            · exact ⟨tid, ty, hty, hXcn, hXcp, by rw [hbase]; simp⟩
          · -- Ext
            refine ⟨by simp, ?_⟩
            intro k ck hk
            refine ⟨ck, ?_, sameCore_refl ck⟩
            rw [hS k, if_pos (List.getElem?_eq_some_iff.mp hk).1]
            exact hk
          · -- index fact
            refine ⟨ty, X, rfl, ?_, hXcn, hXcp⟩
            rw [hS s.length, if_neg (by omega), if_pos rfl]
          · -- new entries
            intro k ck hk hkc
            rcases hrep k ck hkc with ⟨hl, _⟩ | ⟨rfl, rfl⟩
            · omega
            · exact ⟨tid, Nat.le_refl tid, ty, hty, hXcn, hXcp, by rw [hbase]; simp⟩
        | cons b rest =>
          cases rest with
          | cons b2 rest2 =>
            rw [hbase] at hok
            dsimp only at hok
            exact absurd hok (by simp)
          | nil =>
            rw [hbase] at hok
            dsimp only at hok
            cases fuel with
            | zero =>
              dsimp only at hok
              exact absurd hok (by simp)
            | succ f =>
              dsimp only at hok
              cases hrec : getClassMetrics env f s b with
              | error e =>
                rw [hrec] at hok
                exact absurd hok (by simp)
              | ok pr =>
                obtain ⟨s1, j⟩ := pr
                rw [hrec] at hok
                dsimp only at hok
                obtain ⟨hInv1, hExt1, hidx1, hnew1⟩ :=
                  ih f (Nat.lt_succ_self f) s b s1 j hInv hrec
                obtain ⟨tyb, parentCM, htyb, hj, hpn, hpp⟩ := hidx1
                have hpd : s1.getD j default = parentCM := by
                  rw [List.getD_eq_getElem?_getD, hj]
                  rfl
                rw [hpd] at hok
                simp only [Except.ok.injEq, Prod.mk.injEq] at hok
                obtain ⟨rfl, rfl⟩ := hok
                set inc : ClassMetrics :=
                  { parentCM with numberOfChildren := parentCM.numberOfChildren + 1 } with hinc
                set X := mkClassMetrics ty.name (typePath env ty) (some parentCM) ty with hX
                have hXcn : X.className = ty.name := rfl
                have hXcp : X.classPath = typePath env ty := rfl
                have hXpc : X.parentClass = parentCM.className := rfl
                have hXd : X.depthOfInheritance = 1 + parentCM.depthOfInheritance := rfl
                have hXn : X.numberOfChildren = 0 := rfl
                have hicn : inc.className = parentCM.className := rfl
                have hicp : inc.classPath = parentCM.classPath := rfl
                have hipc : inc.parentClass = parentCM.parentClass := rfl
                have hid : inc.depthOfInheritance = parentCM.depthOfInheritance := rfl
                have hin : inc.numberOfChildren = parentCM.numberOfChildren + 1 := rfl
                have him : inc.methods = parentCM.methods := rfl
                have hia : inc.attributes = parentCM.attributes := rfl
                have hblt : b < tid :=
                  hW.base_lt hty (by rw [hbase]; exact List.mem_singleton.mpr rfl)
                have hjlt : j < s1.length := (List.getElem?_eq_some_iff.mp hj).1
                have hS : ∀ (k : Nat), ((s1.set j inc) ++ [X])[k]? =
                    if k < s1.length then (if k = j then some inc else s1[k]?)
                    else if k = s1.length then some X else none := by
                  intro k
                  rw [getElem?_snoc, List.length_set]
                  by_cases h1 : k < s1.length
                  · rw [if_pos h1, if_pos h1]
                    by_cases h2 : k = j
                    · subst h2
                      rw [if_pos rfl]
                      exact List.getElem?_set_self hjlt
                    · rw [if_neg h2]
                      exact List.getElem?_set_ne (fun hh => h2 hh.symm)
                  · rw [if_neg h1, if_neg h1]
                have hfresh1 : ∀ (k : Nat) (ck : ClassMetrics), s1[k]? = some ck →
                    ck.className ≠ ty.name := by
                  intro k ck hk hcontra
                  by_cases hks : k < s.length
                  · obtain ⟨ck0, hk0⟩ : ∃ ck0, s[k]? = some ck0 :=
                      ⟨_, List.getElem?_eq_getElem hks⟩
                    obtain ⟨ck1, hk1, hcore⟩ := hExt1.2 k ck0 hk0
                    rw [hk] at hk1
                    injection hk1 with he
                    subst he
                    exact hfreshS k ck0 hk0 (hcore.1.trans hcontra)
                  · obtain ⟨t', hle, ty', hty', hn', hp', hb'⟩ :=
                      hnew1 k ck (Nat.le_of_not_lt hks) hk
                    have ht' : t' = tid := hW.name_inj hty' hty (hn'.symm.trans hcontra)
                    omega
                have hpar_ne : parentCM.className ≠ ty.name := hfresh1 j parentCM hj
                have hpn_ne : parentCM.className ≠ "" := by
                  rw [hpn]
                  exact hW.name_nonempty htyb
                have hrep : ∀ (k : Nat) (c : ClassMetrics), ((s1.set j inc) ++ [X])[k]? = some c →
                    (k < s1.length ∧ ∃ c0, s1[k]? = some c0 ∧ c0.className = c.className ∧
                      c0.parentClass = c.parentClass ∧
                      c0.depthOfInheritance = c.depthOfInheritance) ∨
                    (k = s1.length ∧ c = X) := by
                  intro k c hkc
                  rw [hS k] at hkc
                  by_cases h1 : k < s1.length
                  · rw [if_pos h1] at hkc
                    by_cases h2 : k = j
                    · subst h2
                      rw [if_pos rfl] at hkc
                      injection hkc with he
                      subst he
                      exact Or.inl ⟨h1, parentCM, hj, hicn.symm, hipc.symm, hid.symm⟩
                    · rw [if_neg h2] at hkc
                      exact Or.inl ⟨h1, c, hkc, rfl, rfl, rfl⟩
                  · rw [if_neg h1] at hkc
                    by_cases h3 : k = s1.length
                    · rw [if_pos h3] at hkc
                      injection hkc with he
                      exact Or.inr ⟨h3, he.symm⟩
                    · rw [if_neg h3] at hkc
                      exact absurd hkc (by simp)
                refine ⟨⟨?_, ?_, ?_, ?_⟩, ?_, ?_, ?_⟩
                · -- distinct class names
                  intro i1 i2 c1 c2 h1 h2 hcc
                  rcases hrep i1 c1 h1 with ⟨hl1, c01, hc01, hn1, _, _⟩ | ⟨he1, rfl⟩
                  · rcases hrep i2 c2 h2 with ⟨hl2, c02, hc02, hn2, _, _⟩ | ⟨he2, rfl⟩
                    · exact hInv1.1 i1 i2 c01 c02 hc01 hc02 (by rw [hn1, hcc, ← hn2])
                    · exact absurd (by rw [hn1, hcc, hXcn]) (hfresh1 i1 c01 hc01)
                  · rcases hrep i2 c2 h2 with ⟨hl2, c02, hc02, hn2, _, _⟩ | ⟨he2, rfl⟩
                    · exact absurd (by rw [hn2, ← hcc, hXcn]) (hfresh1 i2 c02 hc02)
                    · rw [he1, he2]
                · -- depth recurrence
                  intro k ck hkc
                  rcases hrep k ck hkc with ⟨hl, c0, hc0, _, hpc0, hd0⟩ | ⟨rfl, rfl⟩
                  · obtain ⟨hroot, hnonroot⟩ := hInv1.2.1 k c0 hc0
                    constructor
                    · intro hpcEmpty
                      rw [← hd0]
                      exact hroot (by rw [hpc0]; exact hpcEmpty)
                    · intro hpcNe
                      obtain ⟨j', cj', hj'k, hj'get, hj'n, hj'd⟩ :=
                        hnonroot (by rw [hpc0]; exact hpcNe)
                      by_cases h3 : j' = j
                      · subst h3
                        rw [hj] at hj'get
                        injection hj'get with he
                        subst he
                        refine ⟨j', inc, hj'k, ?_, ?_, ?_⟩
                        · rw [hS j', if_pos hjlt, if_pos rfl]
                        · rw [hicn, hj'n, hpc0]
                        · rw [hid, ← hd0]
                          exact hj'd
                      · refine ⟨j', cj', hj'k, ?_, ?_, ?_⟩
                        · rw [hS j', if_pos (by omega), if_neg h3]
                          exact hj'get
                        · rw [hj'n, hpc0]
                        · rw [← hd0]
                          exact hj'd
                  · constructor
                    · intro habs
                      rw [hXpc] at habs
                      exact absurd habs hpn_ne
                    · intro _
                      refine ⟨j, inc, by omega, ?_, ?_, ?_⟩
                      · rw [hS j, if_pos hjlt, if_pos rfl]
                      · rw [hicn, hXpc]
                      · rw [hXd, hid]
                        omega
                · -- child counts
                  intro k ck hkc
                  have hcnt : ∀ (name : String),
                      (((s1.set j inc) ++ [X]).countP (fun c => c.parentClass == name)) =
                        s1.countP (fun c => c.parentClass == name) +
                          (if X.parentClass == name then 1 else 0) := by
                    intro name
                    rw [List.countP_append,
                      countP_set_congr (fun c => c.parentClass == name) s1 j inc parentCM hj
                        rfl]
                    simp [List.countP_cons]
                  rw [hS k] at hkc
                  by_cases h1 : k < s1.length
                  · rw [if_pos h1] at hkc
                    by_cases h2 : k = j
                    · subst h2
                      rw [if_pos rfl] at hkc
                      injection hkc with he
                      subst he
                      rw [hcnt, hicn, hin]
                      have h0 := hInv1.2.2.1 k parentCM hj
                      rw [← h0]
                      have hX1 : (X.parentClass == parentCM.className) = true := by
                        rw [hXpc]
                        simp
                      rw [hX1]
                      simp
                    · rw [if_neg h2] at hkc
                      rw [hcnt]
                      have h0 := hInv1.2.2.1 k ck hkc
                      have hne : (X.parentClass == ck.className) = false := by
                        rw [hXpc, beq_eq_false_iff_ne]
                        intro heq
                        exact h2 (hInv1.1 k j ck parentCM hkc hj heq.symm)
                      rw [hne, ← h0]
                      simp
                  · rw [if_neg h1] at hkc
                    by_cases h3 : k = s1.length
                    · rw [if_pos h3] at hkc
                      injection hkc with he
                      subst he
                      rw [hcnt, hXn]
                      have hzero : s1.countP (fun c => c.parentClass == X.className) = 0 := by
                        rw [List.countP_eq_zero]
                        intro c hcmem hcp
                        have hcp' : c.parentClass = X.className := by simpa using hcp
                        obtain ⟨kk, hkk⟩ := List.mem_iff_getElem?.mp hcmem
                        by_cases hpe : c.parentClass = ""
                        · rw [hpe, hXcn] at hcp'
                          exact hW.name_nonempty hty hcp'.symm
                        · obtain ⟨j', cj', _, hj'get, hj'n, _⟩ := (hInv1.2.1 kk c hkk).2 hpe
                          exact hfresh1 j' cj' hj'get (by rw [hj'n, hcp', hXcn])
                      have hXX : (X.parentClass == X.className) = false := by
                        rw [hXpc, hXcn, beq_eq_false_iff_ne]
                        exact hpar_ne
                      rw [hzero, hXX]
                      simp
                    · rw [if_neg h3] at hkc
                      exact absurd hkc (by simp)
                · -- entries stem from the environment
                  intro k ck hkc
                  rw [hS k] at hkc
                  by_cases h1 : k < s1.length
                  · rw [if_pos h1] at hkc
                    by_cases h2 : k = j
                    · subst h2
                      rw [if_pos rfl] at hkc
                      injection hkc with he
                      subst he
                      obtain ⟨t0, ty0, h1', h2', h3', h4'⟩ := hInv1.2.2.2 k parentCM hj
                      exact ⟨t0, ty0, h1', by rw [hicn]; exact h2', by rw [hicp]; exact h3', h4'⟩
                    · rw [if_neg h2] at hkc
                      exact hInv1.2.2.2 k ck hkc
                  · rw [if_neg h1] at hkc
                    by_cases h3 : k = s1.length
                    · rw [if_pos h3] at hkc
                      injection hkc with he
                      subst he
                      exact ⟨tid, ty, hty, hXcn, hXcp, by rw [hbase]; simp⟩
                    · rw [if_neg h3] at hkc
                      exact absurd hkc (by simp)
                · -- Ext
                  refine Ext_trans hExt1 ⟨?_, ?_⟩
                  · rw [List.length_append, List.length_set]
                    simp
                  · intro k ck hk
                    by_cases h2 : k = j
                    · subst h2
                      rw [hj] at hk
                      injection hk with he
                      subst he
                      refine ⟨inc, ?_, ?_⟩
                      · rw [hS k, if_pos hjlt, if_pos rfl]
                      · exact ⟨hicn.symm, hicp.symm, hipc.symm, hid.symm, him.symm, hia.symm⟩
                    · refine ⟨ck, ?_, sameCore_refl ck⟩
                      rw [hS k, if_pos (List.getElem?_eq_some_iff.mp hk).1, if_neg h2]
                      exact hk
                · -- index fact
                  refine ⟨ty, X, rfl, ?_, hXcn, hXcp⟩
                  rw [List.length_set, hS s1.length, if_neg (by omega), if_pos rfl]
                · -- new entries
                  intro k ck hk hkc
                  rw [hS k] at hkc
                  by_cases h1 : k < s1.length
                  · rw [if_pos h1] at hkc
                    by_cases h2 : k = j
                    · subst h2
                      rw [if_pos rfl] at hkc
                      injection hkc with he
                      subst he
                      obtain ⟨t0, hle0, ty0, h1', h2', h3', h4'⟩ := hnew1 k parentCM hk hj
                      exact ⟨t0, by omega, ty0, h1', by rw [hicn]; exact h2',
                        by rw [hicp]; exact h3', h4'⟩
                    · rw [if_neg h2] at hkc
                      obtain ⟨t0, hle0, hE⟩ := hnew1 k ck hk hkc
                      exact ⟨t0, by omega, hE⟩
                  · rw [if_neg h1] at hkc
                    by_cases h3 : k = s1.length
                    · rw [if_pos h3] at hkc
                      injection hkc with he
                      subst he
                      exact ⟨tid, Nat.le_refl tid, ty, hty, hXcn, hXcp, by rw [hbase]; simp⟩
                    · rw [if_neg h3] at hkc
                      exact absurd hkc (by simp)

/-- The driver traversal preserves the registry invariant. -/
theorem analyzeClasses_ok_spec (env : Env) (hW : EnvWF env) :
    ∀ (nodes : List Nat) (fuel : Nat) (s s' : List ClassMetrics),
      Inv env s → analyzeClasses env fuel nodes s = .ok s' → Inv env s' ∧ Ext s s' := by
  intro nodes
  induction nodes with
  | nil =>
    intro fuel s s' hInv h
    rw [analyzeClasses] at h
    injection h with he
    subst he
    exact ⟨hInv, Ext_refl s⟩
  | cons tid rest ihn =>
    intro fuel s s' hInv h
    rw [analyzeClasses] at h
    cases hg : getClassMetrics env fuel s tid with
    | error e =>
      rw [hg] at h
      exact absurd h (by simp)
    | ok pr =>
      obtain ⟨s1, j⟩ := pr
      rw [hg] at h
      dsimp only at h
      obtain ⟨hInv1, hExt1, _, _⟩ := getClassMetrics_ok_spec env hW fuel s tid s1 j hInv hg
      obtain ⟨hInv2, hExt2⟩ := ihn fuel s1 s' hInv1 h
      exact ⟨hInv2, Ext_trans hExt1 hExt2⟩

/-! ### Claims C2, C4, C5, C6, C10 -/

/-- C2: re-resolving a class whose identity is already registered is
idempotent — with the registry produced by a first resolution, a second
resolution of the same class returns the same registry (no duplicate entry,
no second child-count increment: no side effect at all) and the same entry
index, for any fuel. -/
theorem resolve_is_idempotent (env : Env) (hW : EnvWF env) (s : List ClassMetrics)
    (tid : Nat) (f1 f2 : Nat) (s1 : List ClassMetrics) (i : Nat) (hInv : Inv env s)
    (h1 : getClassMetrics env f1 s tid = .ok (s1, i)) :
    getClassMetrics env f2 s1 tid = .ok (s1, i) := by
  obtain ⟨hInv1, _, ⟨ty, ci, hty, hci, hcn, hcp⟩, _⟩ :=
    getClassMetrics_ok_spec env hW f1 s tid s1 i hInv h1
  rw [getClassMetrics_unfold, hty]
  dsimp only
  have hfind : s1.findIdx? (fun c => c.className == ty.name && c.classPath == typePath env ty)
      = some i := by
    refine findIdx?_eq_some_of_unique hci (by simp [hcn, hcp]) ?_
    intro j cj hj hpj
    simp only [Bool.and_eq_true, beq_iff_eq] at hpj
    exact hInv1.1 j i cj ci hj hci (hpj.1.trans hcn.symm)
  rw [hfind]

/-- C2 witness: resolving class `B` of the sample from the empty registry and
then re-resolving it (even with zero fuel) returns the same registry and
index. -/
theorem resolve_is_idempotent_witness :
    EnvWF env2 ∧
    getClassMetrics env2 0 ((getClassMetrics env2 2 [] 1).toOption.getD ([], 0)).1 1 =
      .ok (((getClassMetrics env2 2 [] 1).toOption.getD ([], 0)).1,
           ((getClassMetrics env2 2 [] 1).toOption.getD ([], 0)).2) :=
  ⟨by decide,
    resolve_is_idempotent env2 (by decide) [] 1 2 0
      ((getClassMetrics env2 2 [] 1).toOption.getD ([], 0)).1
      ((getClassMetrics env2 2 [] 1).toOption.getD ([], 0)).2 (Inv_nil env2) rfl⟩

/-- C4: a class with two or more direct base types encountered during the
traversal makes the whole analysis fail: no result object is produced,
regardless of fuel, of the other nodes, or of how many classes were already
resolved. -/
theorem multiple_inheritance_aborts (env : Env) (fuel : Nat) (nodes : List Nat)
    (tid : Nat) (ty : ClassType) (hW : EnvWF env) (hty : env.types[tid]? = some ty)
    (h2 : 2 ≤ ty.baseTypes.length) (hmem : tid ∈ nodes) :
    (Analyzer.analyze env fuel nodes).toOption = none := by
  have key : ∀ (nodes' : List Nat), tid ∈ nodes' → ∀ (s : List ClassMetrics), Inv env s →
      ∃ e, analyzeClasses env fuel nodes' s = .error e := by
    intro nodes'
    induction nodes' with
    | nil =>
      intro hmem'
      exact absurd hmem' (by simp)
    | cons n rest ihn =>
      intro hmem' s hInv
      rw [analyzeClasses]
      cases hg : getClassMetrics env fuel s n with
      | error e =>
        exact ⟨e, rfl⟩
      | ok pr =>
        obtain ⟨s1, j⟩ := pr
        by_cases hn : n = tid
        · subst hn
          exfalso
          rw [getClassMetrics_unfold, hty] at hg
          dsimp only at hg
          cases hfind :
              s.findIdx? (fun c => c.className == ty.name && c.classPath == typePath env ty) with
          | some i0 =>
            obtain ⟨c, hc, hpc⟩ := findIdx?_some_spec hfind
            simp only [Bool.and_eq_true, beq_iff_eq] at hpc
            obtain ⟨t', ty', hty', hn', hp', hb'⟩ := hInv.2.2.2 _ c hc
            have ht' : t' = n := hW.name_inj hty' hty (hn'.symm.trans hpc.1)
            subst ht'
            rw [hty] at hty'
            injection hty' with he
            subst he
            omega
          | none =>
            rw [hfind] at hg
            dsimp only at hg
            obtain ⟨x, y, l, hxy⟩ : ∃ x y l, ty.baseTypes = x :: y :: l := by
              cases hbt : ty.baseTypes with
              | nil =>
                rw [hbt] at h2
                simp at h2
              | cons x rest1 =>
                cases rest1 with
                | nil =>
                  rw [hbt] at h2
                  simp at h2
                | cons y l => exact ⟨x, y, l, rfl⟩
            rw [hxy] at hg
            dsimp only at hg
            exact absurd hg (by simp)
        · have hmem'' : tid ∈ rest := by
            rcases List.mem_cons.mp hmem' with h | h
            · exact absurd h.symm hn
            · exact h
          obtain ⟨hInv1, _, _, _⟩ := getClassMetrics_ok_spec env hW fuel s n s1 j hInv hg
          obtain ⟨e, he⟩ := ihn hmem'' s1 hInv1
          refine ⟨e, ?_⟩
          dsimp only
          exact he
  obtain ⟨e, he⟩ := key nodes hmem [] (Inv_nil env)
  rw [Analyzer.analyze, he]
  rfl

/-- Sample root class `D`. -/
def tyD : ClassType := ⟨"D", [20], [], []⟩

/-- Sample root class `E`. -/
def tyE : ClassType := ⟨"E", [21], [], []⟩

/-- Sample class `C` with two base types (`D` and `E`). -/
def tyC : ClassType := ⟨"C", [22], [0, 1], []⟩

/-- Sample environment containing a multiple-inheritance class. -/
def env4 : Env := ⟨[tyD, tyE, tyC], fun n => "g.ts:" ++ toString n⟩

/-- C4 witness: the theorem applied to `C extends D, E` after `D` was
already resolved. -/
theorem multiple_inheritance_aborts_witness :
    EnvWF env4 ∧ env4.types[2]? = some tyC ∧ 2 ≤ tyC.baseTypes.length ∧ 2 ∈ [0, 2] ∧
    (Analyzer.analyze env4 5 [0, 2]).toOption = none :=
  ⟨by decide, rfl, by decide, by decide,
    multiple_inheritance_aborts env4 5 [0, 2] 2 tyC (by decide) rfl (by decide) (by decide)⟩

/-- C5: in a completed analysis, a class with empty `parentClass` (a root)
has depth 0, and a class with a parent has the depth of an earlier-registered
class carrying its parent's name, plus one. -/
theorem depth_of_inheritance_recurrence (env : Env) (fuel : Nat) (nodes : List Nat)
    (r : AnalyzeResult) (hW : EnvWF env) (h : Analyzer.analyze env fuel nodes = .ok r) :
    ∀ (i : Nat) (ci : ClassMetrics), r.classes[i]? = some ci →
      (ci.parentClass = "" → ci.depthOfInheritance = 0) ∧
      (ci.parentClass ≠ "" → ∃ (j : Nat) (cj : ClassMetrics), j < i ∧ r.classes[j]? = some cj ∧
        cj.className = ci.parentClass ∧
        ci.depthOfInheritance = cj.depthOfInheritance + 1) := by
  cases hrun : analyzeClasses env fuel nodes [] with
  | error e =>
    rw [Analyzer.analyze, hrun] at h
    exact absurd h (by simp)
  | ok classes =>
    rw [Analyzer.analyze, hrun] at h
    simp only [Except.ok.injEq] at h
    subst h
    obtain ⟨hInv', _⟩ := analyzeClasses_ok_spec env hW nodes fuel [] classes (Inv_nil env) hrun
    intro i ci hci
    exact hInv'.2.1 i ci hci

/-- C5 witness: in the sample, `B`'s depth is `A`'s depth plus one, derived
through the theorem. -/
theorem depth_of_inheritance_recurrence_witness :
    EnvWF env2 ∧
    (sampleResult.classes.getD 1 default).depthOfInheritance =
      (sampleResult.classes.getD 0 default).depthOfInheritance + 1 := by
  refine ⟨by decide, ?_⟩
  have h := depth_of_inheritance_recurrence env2 2 [1] sampleResult (by decide) rfl
  have h1 := h 1 (sampleResult.classes.getD 1 default) (by rfl)
  obtain ⟨j, cj, hj, hget, hname, hdep⟩ := h1.2 (by decide)
  have hj0 : j = 0 := by omega
  subst hj0
  have hg : sampleResult.classes[0]? = some (sampleResult.classes.getD 0 default) := rfl
  rw [hg] at hget
  injection hget with he2
  rw [hdep, ← he2]

/-- C6: in a completed analysis, every class's `numberOfChildren` equals the
number of registered classes whose `parentClass` is that class's name (each
distinct child counted exactly once, however it was reached). -/
theorem number_of_children_counts_children (env : Env) (fuel : Nat) (nodes : List Nat)
    (r : AnalyzeResult) (hW : EnvWF env) (h : Analyzer.analyze env fuel nodes = .ok r) :
    ∀ (j : Nat) (cj : ClassMetrics), r.classes[j]? = some cj →
      cj.numberOfChildren = r.classes.countP (fun c => c.parentClass == cj.className) := by
  cases hrun : analyzeClasses env fuel nodes [] with
  | error e =>
    rw [Analyzer.analyze, hrun] at h
    exact absurd h (by simp)
  | ok classes =>
    rw [Analyzer.analyze, hrun] at h
    simp only [Except.ok.injEq] at h
    subst h
    obtain ⟨hInv', _⟩ := analyzeClasses_ok_spec env hW nodes fuel [] classes (Inv_nil env) hrun
    intro j cj hcj
    exact hInv'.2.2.1 j cj hcj

/-- C6 witness: in the sample (where `B` is reached once directly and `A`
only via `B`'s parent lookup), `A`'s child count equals the count of classes
whose parent is `A`. -/
theorem number_of_children_counts_children_witness :
    EnvWF env2 ∧
    (sampleResult.classes.getD 0 default).numberOfChildren =
      sampleResult.classes.countP
        (fun c => c.parentClass == (sampleResult.classes.getD 0 default).className) :=
  ⟨by decide,
    number_of_children_counts_children env2 2 [1] sampleResult (by decide) rfl 0
      (sampleResult.classes.getD 0 default) rfl⟩

/-- C10: in the emitted classes array, every class with a parent appears at a
strictly later index than a class carrying its parent's name — ancestors
precede descendants. -/
theorem parents_precede_children (env : Env) (fuel : Nat) (nodes : List Nat)
    (r : AnalyzeResult) (hW : EnvWF env) (h : Analyzer.analyze env fuel nodes = .ok r) :
    ∀ (i : Nat) (ci : ClassMetrics), r.classes[i]? = some ci → ci.parentClass ≠ "" →
      ∃ (j : Nat) (cj : ClassMetrics), j < i ∧ r.classes[j]? = some cj ∧
        cj.className = ci.parentClass := by
  cases hrun : analyzeClasses env fuel nodes [] with
  | error e =>
    rw [Analyzer.analyze, hrun] at h
    exact absurd h (by simp)
  | ok classes =>
    rw [Analyzer.analyze, hrun] at h
    simp only [Except.ok.injEq] at h
    subst h
    obtain ⟨hInv', _⟩ := analyzeClasses_ok_spec env hW nodes fuel [] classes (Inv_nil env) hrun
    intro i ci hci hne
    obtain ⟨j, cj, hj, hget, hname, _⟩ := (hInv'.2.1 i ci hci).2 hne
    exact ⟨j, cj, hj, hget, hname⟩

/-- C10 witness: in the sample, `B` (index 1) has its parent `A` at the
strictly earlier index 0, derived through the theorem. -/
theorem parents_precede_children_witness :
    EnvWF env2 ∧
    (sampleResult.classes.getD 0 default).className =
      (sampleResult.classes.getD 1 default).parentClass := by
  refine ⟨by decide, ?_⟩
  have h := parents_precede_children env2 2 [1] sampleResult (by decide) rfl
  obtain ⟨j, cj, hj, hget, hname⟩ :=
    h 1 (sampleResult.classes.getD 1 default) (by rfl) (by decide)
  have hj0 : j = 0 := by omega
  subst hj0
  have hg : sampleResult.classes[0]? = some (sampleResult.classes.getD 0 default) := rfl
  rw [hg] at hget
  injection hget with he2
  rw [he2]
  exact hname

end OOPMetrics
